import Mathlib

/-!
Verification of `scripts/fetch.py` (Claude Code documentation fetcher).

The Python source is shallowly embedded: strings are `List Char` (Python `str`
is a sequence of code points), dictionaries are association lists preserving
insertion order, and the network is an oracle parameter giving the outcome of
each HTTP request.  `hashlib.sha256(...).hexdigest()` — a standard-library
call whose output is treated by the program as an opaque token compared only
for equality — is abstracted as a function parameter `H : Str → Str`.
-/

set_option linter.unusedVariables false

/-- Python `str` modelled as a list of characters (code points). -/
abbrev Str := List Char

/-- Python's substring test `pat in s` (`str.__contains__`). -/
def containsSeq : Str → Str → Bool
  | pat, [] => pat.isPrefixOf []
  | pat, c :: rest => pat.isPrefixOf (c :: rest) || containsSeq pat rest

/-- The whitespace characters removed by Python's `str.strip()` (the ASCII
ones; fetched markdown/document content only involves these). -/
def isPySpace (c : Char) : Bool :=
  c == ' ' || c == '\t' || c == '\n' || c == '\r' || c == '\x0b' || c == '\x0c'

/-- Python `str.lstrip()`. -/
def lstrip (s : Str) : Str := s.dropWhile isPySpace

/-- Python `str.rstrip()`. -/
def rstrip (s : Str) : Str := (s.reverse.dropWhile isPySpace).reverse

/-- Python `str.strip()`. -/
def pyStrip (s : Str) : Str := rstrip (lstrip s)

/-- Python `content.split('\n')`. -/
def splitLines : Str → List Str
  | [] => [[]]
  | c :: rest =>
    if c = '\n' then [] :: splitLines rest
    else
      match splitLines rest with
      | [] => [[c]]
      | l :: ls => (c :: l) :: ls

/-- The remainder of `s` after the first occurrence of `pat`, if any
(one step of Python `s.split(pat)`). -/
def dropAfterFirst (pat : Str) : Str → Option Str
  | [] => none
  | c :: rest =>
    if pat.isPrefixOf (c :: rest) then some ((c :: rest).drop pat.length)
    else dropAfterFirst pat rest

/-- Fuel-bounded iteration for `afterLast`. -/
def afterLastAux (pat : Str) : Nat → Str → Str
  | 0, s => s
  | fuel + 1, s =>
    match dropAfterFirst pat s with
    | none => s
    | some r => afterLastAux pat fuel r

/-- Python `s.split(pat)[-1]` for non-empty `pat`: the suffix of `s` after the
last (left-to-right, non-overlapping) occurrence of `pat`, or `s` itself when
`pat` does not occur. -/
def afterLast (pat s : Str) : Str := afterLastAux pat (s.length + 1) s

/-- Python `path.replace('/', '__')` from `url_to_safe_filename`. -/
def replaceSlashes : Str → Str
  | [] => []
  | c :: rest => if c = '/' then '_' :: '_' :: replaceSlashes rest else c :: replaceSlashes rest

/-- `url_to_safe_filename` (fetch.py lines 93–111): strip a recognized
documentation prefix (the `for`/`else` loop with its `claude-code/` fallback). -/
def stripDocPrefix (url_path : Str) : Str :=
  if containsSeq "/docs/en/".toList url_path then afterLast "/docs/en/".toList url_path
  else if containsSeq "/en/docs/claude-code/".toList url_path then
    afterLast "/en/docs/claude-code/".toList url_path
  else if containsSeq "/docs/claude-code/".toList url_path then
    afterLast "/docs/claude-code/".toList url_path
  else if containsSeq "/claude-code/".toList url_path then
    afterLast "/claude-code/".toList url_path
  else if containsSeq "claude-code/".toList url_path then
    afterLast "claude-code/".toList url_path
  else url_path

/-- `url_to_safe_filename` (fetch.py lines 93–111): convert a URL path to a
safe filename. -/
def url_to_safe_filename (url_path : Str) : Str :=
  let path := stripDocPrefix url_path
  if '/' ∉ path then
    if ".md".toList.isSuffixOf path then path else path ++ ".md".toList
  else
    let safe_name := replaceSlashes path
    if ".md".toList.isSuffixOf safe_name then safe_name else safe_name ++ ".md".toList

/-- `MAX_RETRIES` (fetch.py line 55). -/
def MAX_RETRIES : Nat := 3

/-- `RETRY_DELAY` (fetch.py line 56). -/
def RETRY_DELAY : Nat := 2

/-- `MAX_RETRY_DELAY` (fetch.py line 57). -/
def MAX_RETRY_DELAY : Nat := 30

/-- The outcome of `validate_markdown_content` (fetch.py lines 226–245): `ok`
for a return without raising, the other constructors for its three
`ValueError` branches. -/
inductive ValidationOutcome where
  | ok
  | htmlError
  | tooShort
  | notMarkdown
deriving DecidableEq

/-- The `markdown_indicators` list (fetch.py line 235). -/
def markdown_indicators : List Str :=
  ["# ", "## ", "### ", "```", "- ", "* ", "1. ", "[", "**", "_", "> "].map String.toList

/-- One iteration of the indicator-counting loop (fetch.py lines 238–241):
a line counts when some indicator is a prefix of the stripped line or occurs
anywhere in the line. -/
def lineHasIndicator (line : Str) : Bool :=
  markdown_indicators.any fun ind => ind.isPrefixOf (pyStrip line) || containsSeq ind line

/-- `validate_markdown_content` (fetch.py lines 226–245). -/
def validate_markdown_content (content : Str) : ValidationOutcome :=
  if content = [] ∨ "<!DOCTYPE".toList.isPrefixOf content ∨
      containsSeq "<html".toList (content.take 100) then .htmlError
  else if (pyStrip content).length < 50 then .tooShort
  else if ((splitLines content).take 50).countP lineHasIndicator < 3 then .notMarkdown
  else .ok


/-- The outcome of one HTTP GET inside the retry loop of
`fetch_markdown_content` / `fetch_changelog`: a body accepted by
`raise_for_status`, an HTTP 429 with its optional `Retry-After` header, or a
`requests.exceptions.RequestException` (transport failure / error status). -/
inductive AttemptOutcome where
  | ok (content : Str)
  | rateLimited (retryAfter : Option Nat)
  | transportError (msg : Str)

/-- A `time.sleep` performed inside the retry loop: either the rate-limit wait
of the 429 branch (fetch.py line 262) or the jittered exponential backoff of
the transport-failure branch (fetch.py line 277), tagged with the loop index
`attempt` at which it happened. -/
inductive SleepEvent where
  | rateLimit (wait : Nat)
  | backoff (attempt : Nat) (duration : ℚ)
deriving DecidableEq

/-- How `fetch_markdown_content` terminates: returning `(filename, content)`,
raising the terminal `Exception` (line 279), propagating the `ValueError` from
validation (line 283), or falling off the end of the `for` loop and returning
Python's implicit `None` (no `return` statement is reached). -/
inductive FetchResult where
  | success (filename content : Str)
  | failure (msg : Str)
  | invalid (v : ValidationOutcome)
  | noResult
deriving DecidableEq

/-- `min(RETRY_DELAY * (2 ** attempt), MAX_RETRY_DELAY)` (fetch.py line 275):
the un-jittered backoff delay for the given 0-indexed attempt. -/
def backoffDelay (attempt : Nat) : Nat :=
  min (RETRY_DELAY * 2 ^ attempt) MAX_RETRY_DELAY

/-- The message of the terminal `Exception` (fetch.py line 279), embedding the
last underlying error. -/
def terminalMsg (filename msg : Str) : Str :=
  "Failed to fetch ".toList ++ filename ++ " after ".toList ++
    (toString MAX_RETRIES).toList ++ " attempts: ".toList ++ msg

/-- The `for attempt in range(MAX_RETRIES)` loop of `fetch_markdown_content`
(fetch.py lines 255–283).  `o` gives the outcome of the HTTP GET of each loop
iteration, `jitter` the value drawn by `random.uniform(0.5, 1.0)` at each
attempt index.  `attempt` is the Python loop index and `fuel` the number of
iterations the `range` still has; when `fuel` runs out the function returns
`None` (`noResult`).  The result also carries the ordered list of sleeps. -/
def fetchLoopAux (o : Nat → AttemptOutcome) (jitter : Nat → ℚ) (filename : Str) :
    Nat → Nat → FetchResult × List SleepEvent
  | _, 0 => (.noResult, [])
  | attempt, fuel + 1 =>
    match o attempt with
    | .rateLimited ra =>
      let wait := ra.getD 60
      let r := fetchLoopAux o jitter filename (attempt + 1) fuel
      (r.1, .rateLimit wait :: r.2)
    | .ok content =>
      match validate_markdown_content content with
      | .ok => (.success filename content, [])
      | v => (.invalid v, [])
    | .transportError msg =>
      if attempt < MAX_RETRIES - 1 then
        let d := (backoffDelay attempt : ℚ) * jitter attempt
        let r := fetchLoopAux o jitter filename (attempt + 1) fuel
        (r.1, .backoff attempt d :: r.2)
      else
        (.failure (terminalMsg filename msg), [])

/-- `fetch_markdown_content` (fetch.py lines 248–283) for one page path. -/
def fetch_markdown_content (o : Nat → AttemptOutcome) (jitter : Nat → ℚ)
    (path base_url : Str) : FetchResult × List SleepEvent :=
  fetchLoopAux o jitter (url_to_safe_filename path) 0 MAX_RETRIES

/-- The fixed attribution header prepended by `fetch_changelog`
(fetch.py lines 305–311). -/
def chHeader : Str :=
  "# Claude Code Changelog\n\n> **Source**: https://github.com/anthropics/claude-code/blob/main/CHANGELOG.md\n\n---\n\n".toList

/-- The body-assembly and minimum-length check of `fetch_changelog`
(fetch.py lines 303–318): prepend the attribution header to a body accepted
by HTTP, then raise `ValueError` (`none`) when the stripped combined content
is shorter than 100 characters, else return the combined content. -/
def changelogAssemble (body : Str) : Option Str :=
  let content := chHeader ++ body
  if (pyStrip content).length < 100 then none else some content


/-- One value of the manifest's `files` mapping (fetch.py lines 463–467 and
493–498): source URL, content hash, last-updated timestamp, and the optional
`source` tag used for the changelog entry. -/
structure ManifestEntry where
  original_url : Str
  hash : Str
  last_updated : Str
  source : Option Str := none
deriving DecidableEq

/-- A Python `dict` keyed by filename, as an insertion-ordered association
list (Python dicts preserve insertion order; assignment replaces in place). -/
abbrev AssocStr (β : Type) := List (Str × β)

/-- Dictionary lookup `d.get(name)`. -/
def getAssoc {β : Type} (l : AssocStr β) (name : Str) : Option β :=
  (l.find? fun p => p.1 == name).map Prod.snd

/-- Dictionary assignment `d[name] = v`: replace in place when the key is
present, else append. -/
def setAssoc {β : Type} (l : AssocStr β) (name : Str) (v : β) : AssocStr β :=
  if l.any fun p => p.1 == name then
    l.map fun p => if p.1 == name then (name, v) else p
  else l ++ [(name, v)]

/-- Deleting a key: `file_path.unlink()` for the file with that name
(a no-op when absent, matching the `if file_path.exists()` guard). -/
def eraseAssoc {β : Type} (l : AssocStr β) (name : Str) : AssocStr β :=
  l.filter fun p => !(p.1 == name)

/-- The keys of a dictionary, in order. -/
def keysOf {β : Type} (l : AssocStr β) : List Str := l.map Prod.fst

/-- The `files` mapping of a manifest. -/
abbrev Files := AssocStr ManifestEntry

/-- The references directory on disk: filename to file content. -/
abbrev Disk := AssocStr Str

/-- `MANIFEST_FILE` (fetch.py line 43). -/
def MANIFEST_FILE : Str := "docs_manifest.json".toList

/-- `content_has_changed` (fetch.py lines 329–332), with the SHA-256 hex
digest `hashlib.sha256(content.encode('utf-8')).hexdigest()` abstracted as
`H`. -/
def content_has_changed (H : Str → Str) (content old_hash : Str) : Bool :=
  H content != old_hash

/-- The `protected_files` set of `cleanup_old_files` (fetch.py line 349). -/
def protected_files : List Str := [MANIFEST_FILE, "README.md".toList]

/-- `cleanup_old_files` (fetch.py lines 344–357): delete every file named in
the previous manifest but absent from `current_files`, skipping protected
names. -/
def cleanup_old_files (current_files : List Str) (manifest_files : Files)
    (disk : Disk) : Disk :=
  let previous_files := keysOf manifest_files
  let files_to_remove := previous_files.filter fun f => !(current_files.contains f)
  files_to_remove.foldl
    (fun d filename =>
      if filename ∈ protected_files then d else eraseAssoc d filename)
    disk

/-- The mutable state threaded through the page loop of `fetch_docs`
(fetch.py lines 423–427 plus the on-disk references directory). -/
structure RunState where
  newFiles : Files
  fetched : List Str
  successful : Nat
  failed : Nat
  failedPages : List Str
  disk : Disk
deriving DecidableEq

/-- The body of the per-page loop of `fetch_docs` (fetch.py lines 447–478)
for one page: `fetchRes` is the outcome of `fetch_markdown_content` for the
page (`none` for any raised exception, which the `except` branch turns into
a failure count).  `now` stands for `datetime.now().isoformat()`. -/
def pageStep (H : Str → Str) (oldFiles : Files) (base_url now : Str)
    (st : RunState) (page_path : Str) (fetchRes : Option Str) : RunState :=
  match fetchRes with
  | none =>
    { st with failed := st.failed + 1, failedPages := st.failedPages ++ [page_path] }
  | some content =>
    let filename := url_to_safe_filename page_path
    let old_hash := ((getAssoc oldFiles filename).map ManifestEntry.hash).getD []
    let old_entry := getAssoc oldFiles filename
    if content_has_changed H content old_hash then
      { st with
        disk := setAssoc st.disk filename content
        newFiles := setAssoc st.newFiles filename
          ⟨base_url ++ page_path, H content, now, none⟩
        fetched := st.fetched.insert filename
        successful := st.successful + 1 }
    else
      { st with
        newFiles := setAssoc st.newFiles filename
          ⟨base_url ++ page_path, old_hash,
            ((old_entry.map ManifestEntry.last_updated)).getD now, none⟩
        fetched := st.fetched.insert filename
        successful := st.successful + 1 }

/-- The changelog block of `fetch_docs` (fetch.py lines 480–505): `chRes` is
the outcome of `fetch_changelog` (`none` for a raised exception; a failure
here increments `failed` but records no failed page). -/
def changelogStep (H : Str → Str) (oldFiles : Files) (now : Str)
    (st : RunState) (chRes : Option Str) : RunState :=
  match chRes with
  | none => { st with failed := st.failed + 1 }
  | some content =>
    let filename := "changelog.md".toList
    let chUrl := "https://github.com/anthropics/claude-code/blob/main/CHANGELOG.md".toList
    let old_hash := ((getAssoc oldFiles filename).map ManifestEntry.hash).getD []
    let old_entry := getAssoc oldFiles filename
    if content_has_changed H content old_hash then
      { st with
        disk := setAssoc st.disk filename content
        newFiles := setAssoc st.newFiles filename
          ⟨chUrl, H content, now, some "github".toList⟩
        fetched := st.fetched.insert filename
        successful := st.successful + 1 }
    else
      { st with
        newFiles := setAssoc st.newFiles filename
          ⟨chUrl, old_hash,
            ((old_entry.map ManifestEntry.last_updated)).getD now,
            some "github".toList⟩
        fetched := st.fetched.insert filename
        successful := st.successful + 1 }

/-- The fetch/cleanup portion of `fetch_docs` (fetch.py lines 413–524), from
the per-page loop to the cleanup: iterate the discovered pages (with
`oracle` the outcome of `fetch_markdown_content` per page and `chRes` that
of `fetch_changelog`), then remove obsolete files.  Returns the final state
and the references directory after cleanup; the new manifest persisted by
`save_manifest` has exactly `(fetchDocsModel ...).1.newFiles` as its `files`
mapping. -/
def fetchDocsModel (H : Str → Str) (oldFiles : Files) (base_url now : Str)
    (pages : List Str) (oracle : Str → Option Str) (chRes : Option Str)
    (disk0 : Disk) : RunState × Disk :=
  let st0 : RunState := ⟨[], [], 0, 0, [], disk0⟩
  let st1 := pages.foldl (fun st p => pageStep H oldFiles base_url now st p (oracle p)) st0
  let st2 := changelogStep H oldFiles now st1 chRes
  (st2, cleanup_old_files st2.fetched oldFiles st2.disk)

/-- Lexicographic order on code points: Python's `<=` on `str`, used by
`sorted`. -/
def leStr : Str → Str → Bool
  | [], _ => true
  | _ :: _, [] => false
  | a :: as, b :: bs => if a = b then leStr as bs else decide (a < b)

/-- Insertion into a sorted list, for `sortStrs`. -/
def insertStr (x : Str) : List Str → List Str
  | [] => [x]
  | y :: ys => if leStr x y then x :: y :: ys else y :: insertStr x ys

/-- Python `sorted` on a list of strings (insertion sort; Python's sort is
stable, which coincides on the duplicate-free lists produced by `set`). -/
def sortStrs (l : List Str) : List Str := l.foldr insertStr []

/-- `get_fallback_pages` (fetch.py lines 207–223): the hardcoded fallback
list of essential pages; a pure constant performing no network I/O. -/
def get_fallback_pages : List Str :=
  ["/docs/en/overview", "/docs/en/setup", "/docs/en/quickstart", "/docs/en/memory",
   "/docs/en/common-workflows", "/docs/en/mcp", "/docs/en/github-actions",
   "/docs/en/troubleshooting", "/docs/en/security", "/docs/en/settings",
   "/docs/en/hooks", "/docs/en/costs", "/docs/en/monitoring-usage"].map String.toList

/-- What the `try` block of `discover_claude_code_pages` yields: `failure`
when the HTTP GET, `raise_for_status` or the XML parse raises, otherwise the
list of `<loc>` texts collected from the sitemap (fetch.py lines 157–179). -/
inductive SitemapFetch where
  | failure
  | ok (urls : List Str)

/-- `urlparse(url).path` for the `scheme://host/path` URLs listed in a
sitemap: the part after the host (empty when the URL has no path); a URL
without `://` is all path. -/
def urlPath (u : Str) : Str :=
  match dropAfterFirst "://".toList u with
  | none => u
  | some rest => rest.dropWhile fun c => !(c == '/')

/-- The suffix normalization of fetch.py lines 189–192: strip a trailing
`.html`, else a trailing `/`. -/
def normalizePagePath (path : Str) : Str :=
  if ".html".toList.isSuffixOf path then path.take (path.length - 5)
  else if "/".toList.isSuffixOf path then path.take (path.length - 1)
  else path

/-- The `english_patterns` list (fetch.py line 182). -/
def english_patterns : List Str :=
  ["/docs/en/", "/en/docs/claude-code/"].map String.toList

/-- The `skip_patterns` list (fetch.py line 194). -/
def skip_patterns : List Str :=
  ["/tool-use/", "/examples/", "/legacy/", "/api/", "/reference/"].map String.toList

/-- The page-filtering loop of `discover_claude_code_pages`
(fetch.py lines 181–200): keep URLs matching an English documentation
pattern, take their paths, normalize suffixes, drop paths containing a skip
pattern, deduplicate and sort. -/
def sitemapPages (urls : List Str) : List Str :=
  let matching := urls.filter fun url =>
    english_patterns.any fun pattern => containsSeq pattern url
  let paths := matching.map fun url => normalizePagePath (urlPath url)
  let kept := paths.filter fun path =>
    !(skip_patterns.any fun skip => containsSeq skip path)
  sortStrs kept.dedup

/-- `discover_claude_code_pages` (fetch.py lines 153–204): the fallback list
is returned exactly by the `except` branch; a successfully parsed sitemap is
processed by the filtering loop whatever its URL list. -/
def discover_claude_code_pages : SitemapFetch → List Str
  | .failure => get_fallback_pages
  | .ok urls => sitemapPages urls

/-- The `{"README.md", "docs_manifest.json"}` set subtracted by
`validate_skill_md` (fetch.py lines 378 and 381). -/
def excluded_names : List Str := ["README.md", "docs_manifest.json"].map String.toList

/-- `validate_skill_md` (fetch.py lines 373–386): the referenced set comes
from `get_skill_md_references` (regex extraction from SKILL.md), the fetched
set from the run.  Python sets are duplicate-free lists; set difference is
filtering, `sorted(list(...))` is `sortStrs` after `dedup`. -/
def validate_skill_md (referenced fetched_files : List Str) :
    List Str × List Str :=
  let orphaned := (referenced.filter fun f => !(fetched_files.contains f)).filter
    fun f => !(excluded_names.contains f)
  let unreferenced := (fetched_files.filter fun f => !(referenced.contains f)).filter
    fun f => !(excluded_names.contains f)
  (sortStrs orphaned.dedup, sortStrs unreferenced.dedup)


/-! ### Supporting lemmas -/

theorem containsSeq_infix_iff (pat s : Str) : containsSeq pat s = true ↔ pat <:+: s := by
  induction s with
  | nil =>
    simp [containsSeq]
  | cons c rest ih =>
    simp [containsSeq, ih, List.infix_cons_iff]

theorem length_dropWhile_append (p : Char → Bool) (a b : Str) :
    (b.dropWhile p).length ≤ ((a ++ b).dropWhile p).length := by
  induction a with
  | nil => simp
  | cons x xs ih =>
    by_cases h : p x
    · simpa [List.dropWhile_cons, h] using ih
    · simp only [List.cons_append, List.dropWhile_cons, h, Bool.false_eq_true, if_false]
      have := (List.dropWhile_sublist (l := b) p).length_le
      simp only [List.length_cons, List.length_append]
      omega

theorem lstrip_hash_append (c tail : Str) : lstrip (('#' :: tail) ++ c) = ('#' :: tail) ++ c := by
  simp [lstrip, List.dropWhile_cons, isPySpace]

theorem pyStrip_infix_self (s : Str) : pyStrip s <:+: s := by
  have h1 : lstrip s <:+ s := List.dropWhile_suffix isPySpace
  have h2 : rstrip (lstrip s) <+: lstrip s := by
    have := List.dropWhile_suffix (l := (lstrip s).reverse) isPySpace
    rw [← List.reverse_prefix] at this
    simpa [rstrip] using this
  exact (h2.isInfix).trans h1.isInfix

/-- Claim C10: the fixed attribution header alone has stripped length 108, so
for every HTTP-accepted changelog body (the empty string included) the
stripped combined content is at least 100 characters long and the
`ValueError` branch for a too-short changelog is unreachable:
`fetch_changelog` never rejects a successfully fetched changelog as too
short, and always proceeds with the header-prefixed content. -/
theorem changelog_min_length_unreachable (body : Str) :
    changelogAssemble body = some (chHeader ++ body) := by
  have hlen : 100 ≤ (pyStrip (chHeader ++ body)).length := by
    have hcons : chHeader = '#' :: "".toList ++ " Claude Code Changelog\n\n> **Source**: https://github.com/anthropics/claude-code/blob/main/CHANGELOG.md\n\n---\n\n".toList := by decide
    have hl : lstrip (chHeader ++ body) = chHeader ++ body := by
      rw [hcons]
      exact lstrip_hash_append body _
    have hr : (pyStrip (chHeader ++ body)).length =
        ((chHeader ++ body).reverse.dropWhile isPySpace).length := by
      rw [pyStrip, hl, rstrip, List.length_reverse]
    rw [hr, List.reverse_append]
    have hb := length_dropWhile_append isPySpace body.reverse chHeader.reverse
    have hh : (chHeader.reverse.dropWhile isPySpace).length = 108 := by decide
    omega
  simp only [changelogAssemble]
  rw [if_neg (Nat.not_lt.mpr hlen)]

theorem isSuffixOf_append_self (s t : Str) : t.isSuffixOf (s ++ t) = true := by
  simp

theorem not_mem_replaceSlashes (s : Str) : '/' ∉ replaceSlashes s := by
  induction s with
  | nil => simp [replaceSlashes]
  | cons c rest ih =>
    simp only [replaceSlashes]
    by_cases h : c = '/'
    · rw [if_pos h]
      simp only [List.mem_cons]
      rintro (h1 | h1 | h1)
      · exact absurd h1 (by decide)
      · exact absurd h1 (by decide)
      · exact ih h1
    · rw [if_neg h]
      simp only [List.mem_cons]
      rintro (h1 | h1)
      · exact h h1.symm
      · exact ih h1

theorem dropAfterFirst_none (pat : Str) (hp : pat ≠ []) :
    ∀ s, dropAfterFirst pat s = none → containsSeq pat s = false := by
  intro s
  induction s with
  | nil =>
    intro _
    cases pat with
    | nil => exact absurd rfl hp
    | cons c cs => simp [containsSeq, List.isPrefixOf]
  | cons c rest ih =>
    intro h
    simp only [dropAfterFirst] at h
    by_cases hpre : pat.isPrefixOf (c :: rest)
    · rw [if_pos hpre] at h
      cases h
    · rw [if_neg hpre] at h
      simp only [containsSeq, Bool.or_eq_false_iff]
      simp only [Bool.not_eq_true] at hpre
      exact ⟨hpre, ih h⟩

theorem dropAfterFirst_some_length (pat : Str) (hp : pat ≠ []) :
    ∀ s r, dropAfterFirst pat s = some r → r.length < s.length := by
  intro s
  induction s with
  | nil => intro r h; cases h
  | cons c rest ih =>
    intro r h
    simp only [dropAfterFirst] at h
    by_cases hpre : pat.isPrefixOf (c :: rest)
    · rw [if_pos hpre] at h
      cases h
      have hplen : 1 ≤ pat.length := by
        cases pat with
        | nil => exact absurd rfl hp
        | cons x xs => simp
      simp only [List.length_drop, List.length_cons]
      omega
    · rw [if_neg hpre] at h
      have := ih r h
      simp only [List.length_cons]
      omega

theorem afterLastAux_not_contains (pat : Str) (hp : pat ≠ []) :
    ∀ fuel s, s.length < fuel → containsSeq pat (afterLastAux pat fuel s) = false := by
  intro fuel
  induction fuel with
  | zero => intro s h; omega
  | succ n ih =>
    intro s h
    simp only [afterLastAux]
    cases hd : dropAfterFirst pat s with
    | none => exact dropAfterFirst_none pat hp s hd
    | some r =>
      have := dropAfterFirst_some_length pat hp s r hd
      exact ih r (by omega)

theorem afterLast_not_contains (pat s : Str) (hp : pat ≠ []) :
    containsSeq pat (afterLast pat s) = false :=
  afterLastAux_not_contains pat hp (s.length + 1) s (by omega)

theorem replaceSlashes_eq_flatMap (s : Str) :
    replaceSlashes s = s.flatMap fun c => if c = '/' then ['_', '_'] else [c] := by
  induction s with
  | nil => rfl
  | cons c rest ih =>
    by_cases h : c = '/'
    · simp [replaceSlashes, h, ih]
    · simp [replaceSlashes, h, ih]

/-- The filename computation exactly as claim C5 words it: strip the
recognized documentation-prefix segment, replace every remaining `/`
separator with the double underscore `'_', '_'`, and ensure the `.md`
suffix; a trimmed path with no remaining separator is left as it is before
the suffix step, so it just gets `.md` appended when missing. -/
def claimFilename (up : Str) : Str :=
  let path := stripDocPrefix up
  let name :=
    if '/' ∈ path then path.flatMap fun c => if c = '/' then ['_', '_'] else [c]
    else path
  if ".md".toList.isSuffixOf name then name else name ++ ".md".toList

/-- Claim C5: `url_to_safe_filename` is a pure function of its input (so the
same path always yields the same filename), and for every input it computes
exactly the claim's description `claimFilename`: strip the recognized
documentation-prefix segment, replace every remaining `/` separator with a
double underscore, ensure the `.md` suffix.  Whichever recognized prefix
segment is selected — the five patterns in source priority order — no
longer occurs in the stripped path; a trimmed path with no remaining
separator just gets `.md` appended when missing; the output contains no `/`
and always ends in `.md`. -/
theorem url_to_safe_filename_spec (up : Str) :
    url_to_safe_filename up = url_to_safe_filename up ∧
    url_to_safe_filename up = claimFilename up ∧
    (containsSeq "/docs/en/".toList up = true →
      containsSeq "/docs/en/".toList (stripDocPrefix up) = false) ∧
    (containsSeq "/docs/en/".toList up = false →
      containsSeq "/en/docs/claude-code/".toList up = true →
      containsSeq "/en/docs/claude-code/".toList (stripDocPrefix up) = false) ∧
    (containsSeq "/docs/en/".toList up = false →
      containsSeq "/en/docs/claude-code/".toList up = false →
      containsSeq "/docs/claude-code/".toList up = true →
      containsSeq "/docs/claude-code/".toList (stripDocPrefix up) = false) ∧
    (containsSeq "/docs/en/".toList up = false →
      containsSeq "/en/docs/claude-code/".toList up = false →
      containsSeq "/docs/claude-code/".toList up = false →
      containsSeq "/claude-code/".toList up = true →
      containsSeq "/claude-code/".toList (stripDocPrefix up) = false) ∧
    (containsSeq "/docs/en/".toList up = false →
      containsSeq "/en/docs/claude-code/".toList up = false →
      containsSeq "/docs/claude-code/".toList up = false →
      containsSeq "/claude-code/".toList up = false →
      containsSeq "claude-code/".toList up = true →
      containsSeq "claude-code/".toList (stripDocPrefix up) = false) ∧
    ('/' ∉ stripDocPrefix up →
      url_to_safe_filename up =
        if ".md".toList.isSuffixOf (stripDocPrefix up) then stripDocPrefix up
        else stripDocPrefix up ++ ".md".toList) ∧
    '/' ∉ url_to_safe_filename up ∧
    ".md".toList.isSuffixOf (url_to_safe_filename up) = true := by
  refine ⟨rfl, ?_, ?_, ?_, ?_, ?_, ?_, ?_, ?_, ?_⟩
  · simp only [url_to_safe_filename, claimFilename]
    by_cases h : '/' ∈ stripDocPrefix up
    · simp [h, replaceSlashes_eq_flatMap]
    · simp [h]
  · intro h
    simp only [stripDocPrefix]
    rw [if_pos h]
    exact afterLast_not_contains _ up (by decide)
  · intro h1 h2
    simp only [stripDocPrefix]
    rw [if_neg (Bool.eq_false_iff.mp h1), if_pos h2]
    exact afterLast_not_contains _ up (by decide)
  · intro h1 h2 h3
    simp only [stripDocPrefix]
    rw [if_neg (Bool.eq_false_iff.mp h1), if_neg (Bool.eq_false_iff.mp h2), if_pos h3]
    exact afterLast_not_contains _ up (by decide)
  · intro h1 h2 h3 h4
    simp only [stripDocPrefix]
    rw [if_neg (Bool.eq_false_iff.mp h1), if_neg (Bool.eq_false_iff.mp h2), if_neg (Bool.eq_false_iff.mp h3), if_pos h4]
    exact afterLast_not_contains _ up (by decide)
  · intro h1 h2 h3 h4 h5
    simp only [stripDocPrefix]
    rw [if_neg (Bool.eq_false_iff.mp h1), if_neg (Bool.eq_false_iff.mp h2), if_neg (Bool.eq_false_iff.mp h3),
      if_neg (Bool.eq_false_iff.mp h4), if_pos h5]
    exact afterLast_not_contains _ up (by decide)
  · intro h
    simp only [url_to_safe_filename]
    rw [if_pos h]
  · simp only [url_to_safe_filename]
    split
    · rename_i hno
      split
      · exact hno
      · intro hmem
        rcases List.mem_append.mp hmem with h1 | h1
        · exact hno h1
        · exact absurd h1 (by decide)
    · intro hmem
      rename_i hyes
      split at hmem
      · exact not_mem_replaceSlashes _ hmem
      · rcases List.mem_append.mp hmem with h1 | h1
        · exact not_mem_replaceSlashes _ h1
        · exact absurd h1 (by decide)
  · simp only [url_to_safe_filename]
    split
    · split
      · assumption
      · exact isSuffixOf_append_self _ _
    · split
      · assumption
      · exact isSuffixOf_append_self _ _

/-- Witness for `url_to_safe_filename_spec`, at `/docs/en/hooks` for the
claim-equality, first-priority stripping, the no-separator branch, and the
output shape, and at `/claude-code/memory` for stripping the fourth
recognized prefix. -/
theorem url_to_safe_filename_spec_witness :
    url_to_safe_filename "/docs/en/hooks".toList = claimFilename "/docs/en/hooks".toList ∧
    containsSeq "/docs/en/".toList (stripDocPrefix "/docs/en/hooks".toList) = false ∧
    containsSeq "/claude-code/".toList (stripDocPrefix "/claude-code/memory".toList) = false ∧
    url_to_safe_filename "/docs/en/hooks".toList =
      (if ".md".toList.isSuffixOf (stripDocPrefix "/docs/en/hooks".toList) then
        stripDocPrefix "/docs/en/hooks".toList
      else stripDocPrefix "/docs/en/hooks".toList ++ ".md".toList) ∧
    '/' ∉ url_to_safe_filename "/docs/en/hooks".toList ∧
    ".md".toList.isSuffixOf (url_to_safe_filename "/docs/en/hooks".toList) = true :=
  ⟨(url_to_safe_filename_spec _).2.1,
    (url_to_safe_filename_spec _).2.2.1 (by decide),
    (url_to_safe_filename_spec "/claude-code/memory".toList).2.2.2.2.2.1
      (by decide) (by decide) (by decide) (by decide),
    (url_to_safe_filename_spec _).2.2.2.2.2.2.2.1 (by decide),
    (url_to_safe_filename_spec _).2.2.2.2.2.2.2.2.1,
    (url_to_safe_filename_spec _).2.2.2.2.2.2.2.2.2⟩

theorem prefix_strip_contains {ind l : Str} (h : ind.isPrefixOf (pyStrip l) = true) :
    containsSeq ind l = true := by
  rw [containsSeq_infix_iff]
  rw [List.isPrefixOf_iff_prefix] at h
  exact (h.isInfix).trans (pyStrip_infix_self l)

theorem lineHasIndicator_eq (l : Str) :
    lineHasIndicator l = true ↔
      (markdown_indicators.any fun ind => containsSeq ind l) = true := by
  simp only [lineHasIndicator, List.any_eq_true, Bool.or_eq_true]
  constructor
  · rintro ⟨ind, hmem, h | h⟩
    · exact ⟨ind, hmem, prefix_strip_contains h⟩
    · exact ⟨ind, hmem, h⟩
  · rintro ⟨ind, hmem, h⟩
    exact ⟨ind, hmem, Or.inr h⟩

/-- The rejection condition exactly as claim C6 words it: empty content, a
`<!DOCTYPE` start, `<html` within the first 100 characters, stripped length
below the 50-byte minimum, or fewer than 3 of the first 50 lines containing
at least one of the fixed markdown indicators. -/
def claimRejects (content : Str) : Prop :=
  content = [] ∨ "<!DOCTYPE".toList.isPrefixOf content ∨
    containsSeq "<html".toList (content.take 100) ∨
    (pyStrip content).length < 50 ∨
    ((splitLines content).take 50).countP
      (fun l => markdown_indicators.any fun ind => containsSeq ind l) < 3

/-- Claim C6: `validate_markdown_content` raises (returns a non-`ok` outcome)
exactly under the claim's disjunction of conditions, and accepts every
content meeting none of them.  The claim counts lines that "contain" an
indicator; the source additionally tests `line.strip().startswith(indicator)`,
which is subsumed by containment since the stripped line is an infix of the
line. -/
theorem validate_markdown_content_iff (c : Str) :
    validate_markdown_content c ≠ .ok ↔ claimRejects c := by
  have hcount : ((splitLines c).take 50).countP lineHasIndicator =
      ((splitLines c).take 50).countP
        (fun l => markdown_indicators.any fun ind => containsSeq ind l) :=
    List.countP_congr fun l _ => lineHasIndicator_eq l
  unfold validate_markdown_content claimRejects
  rw [hcount]
  split_ifs with h1 h2 h3
  · exact iff_of_true (by intro hh; cases hh) (by tauto)
  · exact iff_of_true (by intro hh; cases hh) (by tauto)
  · exact iff_of_true (by intro hh; cases hh) (by tauto)
  · refine iff_of_false (by simp) ?_
    rintro (h | h | h | h | h)
    · exact h1 (Or.inl h)
    · exact h1 (Or.inr (Or.inl h))
    · exact h1 (Or.inr (Or.inr h))
    · exact h2 h
    · exact h3 h

/-- Claim C7 counterexample: a sitemap that fetches and parses successfully
but yields an empty URL list makes `discover_claude_code_pages` return the
empty list, not the (non-empty) hardcoded fallback list — the `except`
branch is the only path to `get_fallback_pages`, and an empty `urls` list
flows through the filtering loop to `sorted(list(set([]))) == []`. -/
theorem discover_empty_sitemap_cex :
    discover_claude_code_pages (.ok []) = [] ∧
    get_fallback_pages ≠ [] ∧
    discover_claude_code_pages (.ok []) ≠ get_fallback_pages := by
  refine ⟨rfl, by decide, by decide⟩

/-- Claim C7 amended: `discover_claude_code_pages` returns the fixed
hardcoded fallback page list exactly when fetching or parsing the sitemap
raises; the fallback list is non-empty (and, being a pure constant of the
embedding, involves no network effect); a sitemap that parses to an empty
URL list instead produces the empty page list (which the caller `fetch_docs`
turns into `sys.exit(1)`). -/
theorem discover_fallback_spec :
    discover_claude_code_pages .failure = get_fallback_pages ∧
    get_fallback_pages ≠ [] ∧
    (∀ urls, discover_claude_code_pages (.ok urls) = sitemapPages urls) ∧
    discover_claude_code_pages (.ok []) = [] := by
  exact ⟨rfl, by decide, fun urls => rfl, rfl⟩

theorem leStr_total (a b : Str) : leStr a b = true ∨ leStr b a = true := by
  induction a generalizing b with
  | nil => exact Or.inl rfl
  | cons x xs ih =>
    cases b with
    | nil => exact Or.inr rfl
    | cons y ys =>
      by_cases hxy : x = y
      · subst hxy
        rcases ih ys with h | h
        · exact Or.inl (by simp [leStr, h])
        · exact Or.inr (by simp [leStr, h])
      · rcases lt_or_gt_of_ne hxy with h | h
        · exact Or.inl (by simp [leStr, hxy, h])
        · exact Or.inr (by simp [leStr, Ne.symm hxy, h])

theorem leStr_trans {a b c : Str} (h1 : leStr a b = true) (h2 : leStr b c = true) :
    leStr a c = true := by
  induction a generalizing b c with
  | nil => rfl
  | cons x xs ih =>
    cases b with
    | nil => simp [leStr] at h1
    | cons y ys =>
      cases c with
      | nil => simp [leStr] at h2
      | cons z zs =>
        simp only [leStr] at h1 h2 ⊢
        by_cases hxy : x = y
        · subst hxy
          rw [if_pos rfl] at h1
          by_cases hyz : x = z
          · subst hyz
            rw [if_pos rfl] at h2
            rw [if_pos rfl]
            exact ih h1 h2
          · rw [if_neg hyz] at h2
            rw [if_neg hyz]
            exact h2
        · rw [if_neg hxy] at h1
          by_cases hyz : y = z
          · subst hyz
            rw [if_neg hxy]
            exact h1
          · rw [if_neg hyz] at h2
            have hxz : x < z := lt_trans (by simpa using h1) (by simpa using h2)
            rw [if_neg (ne_of_lt hxz)]
            simpa using hxz

theorem mem_insertStr {y x : Str} : ∀ {l : List Str}, y ∈ insertStr x l ↔ y = x ∨ y ∈ l := by
  intro l
  induction l with
  | nil => simp [insertStr]
  | cons z zs ih =>
    simp only [insertStr]
    split
    · simp [List.mem_cons]
    · simp only [List.mem_cons, ih]
      tauto

theorem sorted_insertStr {x : Str} :
    ∀ {l : List Str}, l.Sorted (fun a b => leStr a b = true) →
      (insertStr x l).Sorted (fun a b => leStr a b = true) := by
  intro l
  induction l with
  | nil => intro _; simp [insertStr]
  | cons z zs ih =>
    intro hs
    rw [List.sorted_cons] at hs
    simp only [insertStr]
    split
    · rename_i hle
      rw [List.sorted_cons]
      refine ⟨?_, by rw [List.sorted_cons]; exact hs⟩
      intro b hb
      rcases List.mem_cons.mp hb with hb | hb
      · exact hb ▸ hle
      · exact leStr_trans hle (hs.1 b hb)
    · rename_i hnle
      rw [List.sorted_cons]
      refine ⟨?_, ih hs.2⟩
      intro b hb
      rcases mem_insertStr.mp hb with hb | hb
      · rw [hb]
        rcases leStr_total x z with h | h
        · exact absurd h hnle
        · exact h
      · exact hs.1 b hb

theorem sorted_sortStrs (l : List Str) :
    (sortStrs l).Sorted (fun a b => leStr a b = true) := by
  induction l with
  | nil => simp [sortStrs]
  | cons x xs ih => exact sorted_insertStr ih

theorem mem_sortStrs {y : Str} : ∀ {l : List Str}, y ∈ sortStrs l ↔ y ∈ l := by
  intro l
  induction l with
  | nil => simp [sortStrs]
  | cons x xs ih =>
    simp only [sortStrs, List.foldr_cons, List.mem_cons]
    rw [show List.foldr insertStr [] xs = sortStrs xs from rfl] at *
    rw [mem_insertStr, ih]

/-- Claim C8: for every referenced set and fetched set, `validate_skill_md`
returns `orphaned` = referenced − fetched − `{README.md, docs_manifest.json}`
and `unreferenced` = fetched − referenced − `{README.md, docs_manifest.json}`,
each as a sorted list; in particular referenced `{A.md, B.md}` with fetched
`{A.md, C.md}` yields orphaned `{B.md}` and unreferenced `{C.md}`. -/
theorem validate_skill_md_spec (referenced fetched_files : List Str) :
    (∀ f, f ∈ (validate_skill_md referenced fetched_files).1 ↔
      f ∈ referenced ∧ f ∉ fetched_files ∧ f ∉ excluded_names) ∧
    (∀ f, f ∈ (validate_skill_md referenced fetched_files).2 ↔
      f ∈ fetched_files ∧ f ∉ referenced ∧ f ∉ excluded_names) ∧
    ((validate_skill_md referenced fetched_files).1).Sorted
      (fun a b => leStr a b = true) ∧
    ((validate_skill_md referenced fetched_files).2).Sorted
      (fun a b => leStr a b = true) ∧
    validate_skill_md (["A.md", "B.md"].map String.toList)
      (["A.md", "C.md"].map String.toList) = (["B.md".toList], ["C.md".toList]) := by
  refine ⟨?_, ?_, ?_, ?_, by decide⟩
  · intro f
    simp [validate_skill_md, mem_sortStrs, List.mem_dedup, List.mem_filter]
    tauto
  · intro f
    simp [validate_skill_md, mem_sortStrs, List.mem_dedup, List.mem_filter]
    tauto
  · exact sorted_sortStrs _
  · exact sorted_sortStrs _

theorem fetchLoopAux_rl (o : Nat → AttemptOutcome) (j : Nat → ℚ) (fn : Str)
    (attempt fuel : Nat) (ra : Option Nat) (h : o attempt = .rateLimited ra) :
    fetchLoopAux o j fn attempt (fuel + 1) =
      ((fetchLoopAux o j fn (attempt + 1) fuel).1,
        .rateLimit (ra.getD 60) :: (fetchLoopAux o j fn (attempt + 1) fuel).2) := by
  simp [fetchLoopAux, h]

theorem fetchLoopAux_te (o : Nat → AttemptOutcome) (j : Nat → ℚ) (fn : Str)
    (attempt fuel : Nat) (m : Str) (h : o attempt = .transportError m)
    (hlt : attempt < MAX_RETRIES - 1) :
    fetchLoopAux o j fn attempt (fuel + 1) =
      ((fetchLoopAux o j fn (attempt + 1) fuel).1,
        .backoff attempt ((backoffDelay attempt : ℚ) * j attempt) ::
          (fetchLoopAux o j fn (attempt + 1) fuel).2) := by
  simp [fetchLoopAux, h, hlt]

theorem fetchLoopAux_te_last (o : Nat → AttemptOutcome) (j : Nat → ℚ) (fn : Str)
    (attempt fuel : Nat) (m : Str) (h : o attempt = .transportError m)
    (hlt : ¬ attempt < MAX_RETRIES - 1) :
    fetchLoopAux o j fn attempt (fuel + 1) = (.failure (terminalMsg fn m), []) := by
  simp [fetchLoopAux, h, hlt]

theorem fetchLoopAux_fst_step (o : Nat → AttemptOutcome) (j : Nat → ℚ) (fn : Str)
    (attempt fuel : Nat)
    (h : (∃ ra, o attempt = .rateLimited ra) ∨
      (∃ m, o attempt = .transportError m ∧ attempt < MAX_RETRIES - 1)) :
    (fetchLoopAux o j fn attempt (fuel + 1)).1 =
      (fetchLoopAux o j fn (attempt + 1) fuel).1 := by
  rcases h with ⟨ra, hh⟩ | ⟨m, hh, hlt⟩
  · rw [fetchLoopAux_rl o j fn attempt fuel ra hh]
  · rw [fetchLoopAux_te o j fn attempt fuel m hh hlt]

/-- Claim C9: a transport failure at 0-indexed attempt `k` with an attempt
remaining (`k < MAX_RETRIES - 1`) makes the fetcher sleep, before the next
attempt, for `min(RETRY_DELAY * 2^k, MAX_RETRY_DELAY) * jitter k` seconds;
with the jitter drawn from [0.5, 1.0] that duration lies between half the
un-jittered delay and the full delay; the un-jittered delay never exceeds
the 30-second cap and doubles per attempt, capped at `MAX_RETRY_DELAY`. -/
theorem backoff_delay_spec (o : Nat → AttemptOutcome) (j : Nat → ℚ) (fn : Str)
    (hj : ∀ n, (1 : ℚ) / 2 ≤ j n ∧ j n ≤ 1) :
    (∀ fuel k m, o k = .transportError m → k < MAX_RETRIES - 1 →
      fetchLoopAux o j fn k (fuel + 1) =
        ((fetchLoopAux o j fn (k + 1) fuel).1,
          .backoff k ((backoffDelay k : ℚ) * j k) ::
            (fetchLoopAux o j fn (k + 1) fuel).2)) ∧
    (∀ k, (backoffDelay k : ℚ) / 2 ≤ (backoffDelay k : ℚ) * j k ∧
      (backoffDelay k : ℚ) * j k ≤ (backoffDelay k : ℚ)) ∧
    (∀ k, backoffDelay k ≤ MAX_RETRY_DELAY) ∧
    (∀ k, backoffDelay (k + 1) = min (2 * backoffDelay k) MAX_RETRY_DELAY) := by
  refine ⟨?_, ?_, ?_, ?_⟩
  · intro fuel k m hk hlt
    exact fetchLoopAux_te o j fn k fuel m hk hlt
  · intro k
    have h0 : (0 : ℚ) ≤ (backoffDelay k : ℚ) := by positivity
    obtain ⟨hl, hu⟩ := hj k
    constructor
    · have := mul_le_mul_of_nonneg_left hl h0
      linarith
    · have := mul_le_mul_of_nonneg_left hu h0
      linarith
  · intro k
    exact Nat.min_le_right _ _
  · intro k
    simp only [backoffDelay, RETRY_DELAY, MAX_RETRY_DELAY, pow_succ]
    have h2 : 1 ≤ 2 ^ k := Nat.one_le_two_pow
    generalize 2 ^ k = m at h2 ⊢
    omega

/-- Witness for `backoff_delay_spec`: a run with constant jitter 1 and a
transport failure on every attempt performs the attempt-0 backoff sleep of
`backoffDelay 0` seconds, and the capped doubling holds at attempt 0. -/
theorem backoff_delay_spec_witness :
    fetchLoopAux (fun _ => .transportError "x".toList) (fun _ => 1) "m.md".toList 0 (2 + 1) =
      ((fetchLoopAux (fun _ => .transportError "x".toList) (fun _ => 1) "m.md".toList 1 2).1,
        .backoff 0 ((backoffDelay 0 : ℚ) * 1) ::
          (fetchLoopAux (fun _ => .transportError "x".toList) (fun _ => 1) "m.md".toList 1 2).2) ∧
    backoffDelay 1 = min (2 * backoffDelay 0) MAX_RETRY_DELAY :=
  ⟨(backoff_delay_spec (fun _ => .transportError "x".toList) (fun _ => 1) "m.md".toList
      (fun n => ⟨by norm_num, by norm_num⟩)).1 2 0 "x".toList rfl (by decide),
    (backoff_delay_spec (fun _ => .transportError "x".toList) (fun _ => 1) "m.md".toList
      (fun n => ⟨by norm_num, by norm_num⟩)).2.2.2 0⟩

/-- A concrete markdown body that passes `validate_markdown_content`. -/
def c3Good : Str :=
  "# Heading\n\n- item one with enough text to pass the length check\n- item two\n\nMore words here.".toList

/-- Concrete oracle for the claim C3 counterexample: a 429 with
`Retry-After: 5` on the first request, transport failures on the next two,
and a valid markdown body available from the fourth response onward. -/
def c3Oracle : Nat → AttemptOutcome := fun n =>
  if n = 0 then .rateLimited (some 5)
  else if n < 3 then .transportError "boom".toList
  else .ok c3Good

/-- Claim C3 counterexample: with `c3Oracle`, the 429 occupies loop index 0,
so the run's only backoff sleep has un-jittered delay `backoffDelay 1` = 4,
not `backoffDelay 0` = 2 — the rate-limit retry advanced the
exponential-backoff growth — and the run raises the terminal failure after
only two transport attempts even though a valid response was available at
the fourth request: the rate-limit retry did count against the attempt
budget. -/
theorem rate_limit_counts_cex :
    (fetch_markdown_content c3Oracle (fun _ => 1) "/docs/en/hooks".toList
      "https://code.claude.com".toList).2 =
      [.rateLimit 5, .backoff 1 ((backoffDelay 1 : ℚ) * 1)] ∧
    (backoffDelay 1 : ℚ) * 1 ≠ (backoffDelay 0 : ℚ) * 1 ∧
    (fetch_markdown_content c3Oracle (fun _ => 1) "/docs/en/hooks".toList
      "https://code.claude.com".toList).1 =
      .failure (terminalMsg "hooks.md".toList "boom".toList) ∧
    c3Oracle MAX_RETRIES = .ok c3Good ∧
    validate_markdown_content c3Good = .ok := by
  refine ⟨rfl, ?_, by decide, rfl, by decide⟩
  norm_num [backoffDelay, RETRY_DELAY, MAX_RETRY_DELAY]

/-- Claim C3 amended: on an HTTP 429 at loop index `attempt` the fetcher
sleeps exactly `Retry-After` seconds (60 when the header is absent) — hence
at least the header value — and then continues with loop index `attempt + 1`
and one fewer remaining iteration: the rate-limit retry consumes an attempt
of the `MAX_RETRIES` budget and advances the attempt index from which later
exponential-backoff delays are computed. -/
theorem rate_limit_wait_consumes_attempt (o : Nat → AttemptOutcome) (j : Nat → ℚ)
    (fn : Str) (attempt fuel : Nat) (ra : Option Nat)
    (h : o attempt = .rateLimited ra) :
    fetchLoopAux o j fn attempt (fuel + 1) =
      ((fetchLoopAux o j fn (attempt + 1) fuel).1,
        .rateLimit (ra.getD 60) :: (fetchLoopAux o j fn (attempt + 1) fuel).2) ∧
    (∀ w, ra = some w → ra.getD 60 = w) ∧
    (ra = none → ra.getD 60 = 60) := by
  refine ⟨fetchLoopAux_rl o j fn attempt fuel ra h, ?_, ?_⟩
  · rintro w rfl
    rfl
  · rintro rfl
    rfl

/-- Witness for `rate_limit_wait_consumes_attempt` at a concrete 429 run. -/
theorem rate_limit_wait_consumes_attempt_witness :
    fetchLoopAux (fun _ => .rateLimited (some 5)) (fun _ => 1) "hooks.md".toList 0 (2 + 1) =
      ((fetchLoopAux (fun _ => .rateLimited (some 5)) (fun _ => 1) "hooks.md".toList 1 2).1,
        .rateLimit ((some 5).getD 60) ::
          (fetchLoopAux (fun _ => .rateLimited (some 5)) (fun _ => 1) "hooks.md".toList 1 2).2) ∧
    (some 5).getD 60 = 5 :=
  ⟨(rate_limit_wait_consumes_attempt (fun _ => .rateLimited (some 5)) (fun _ => 1)
      "hooks.md".toList 0 2 (some 5) rfl).1,
    (rate_limit_wait_consumes_attempt (fun _ => .rateLimited (some 5)) (fun _ => 1)
      "hooks.md".toList 0 2 (some 5) rfl).2.1 5 rfl⟩

/-- Claim C4 counterexample: when every attempt receives a 429 (so the
`continue` branch exhausts the `for` loop), `fetch_markdown_content` falls
off the end of the loop and returns Python's implicit `None`: it terminates
with neither a `(filename, content)` result nor a raised error. -/
theorem all_rate_limited_returns_none_cex :
    (fetch_markdown_content (fun _ => .rateLimited none) (fun _ => 1)
      "/docs/en/hooks".toList "https://code.claude.com".toList).1 = .noResult ∧
    FetchResult.noResult ≠ .failure (terminalMsg "hooks.md".toList
      "HTTPError 429".toList) ∧
    FetchResult.noResult ≠ .success "hooks.md".toList "body".toList := by
  exact ⟨by decide, by decide, by decide⟩

/-- Claim C4 amended: in a run where no attempt succeeds (each attempt is a
429 or a transport failure), `fetch_markdown_content` raises the terminal
error embedding the last underlying error exactly when the final attempt's
outcome is a transport failure; when the final attempt receives a 429 the
function instead returns `None` — it does not always raise after exhausting
the attempt budget. -/
theorem exhausted_attempts_outcome (o : Nat → AttemptOutcome) (j : Nat → ℚ)
    (path base_url : Str)
    (h : ∀ k, k < MAX_RETRIES →
      (∃ ra, o k = .rateLimited ra) ∨ (∃ m, o k = .transportError m)) :
    (∀ ra, o (MAX_RETRIES - 1) = .rateLimited ra →
      (fetch_markdown_content o j path base_url).1 = .noResult) ∧
    (∀ m, o (MAX_RETRIES - 1) = .transportError m →
      (fetch_markdown_content o j path base_url).1 =
        .failure (terminalMsg (url_to_safe_filename path) m)) := by
  have hd0 : (∃ ra, o 0 = .rateLimited ra) ∨
      (∃ m, o 0 = .transportError m ∧ 0 < MAX_RETRIES - 1) := by
    rcases h 0 (by decide) with hh | ⟨m0, hm0⟩
    · exact Or.inl hh
    · exact Or.inr ⟨m0, hm0, by decide⟩
  have hd1 : (∃ ra, o 1 = .rateLimited ra) ∨
      (∃ m, o 1 = .transportError m ∧ 1 < MAX_RETRIES - 1) := by
    rcases h 1 (by decide) with hh | ⟨m1, hm1⟩
    · exact Or.inl hh
    · exact Or.inr ⟨m1, hm1, by decide⟩
  constructor
  · intro ra hra
    calc (fetch_markdown_content o j path base_url).1
        = (fetchLoopAux o j (url_to_safe_filename path) 1 (1 + 1)).1 :=
          fetchLoopAux_fst_step o j (url_to_safe_filename path) 0 2 hd0
      _ = (fetchLoopAux o j (url_to_safe_filename path) 2 (0 + 1)).1 :=
          fetchLoopAux_fst_step o j (url_to_safe_filename path) 1 1 hd1
      _ = .noResult := by
          rw [fetchLoopAux_rl o j (url_to_safe_filename path) 2 0 ra hra]
          rfl
  · intro m hm
    calc (fetch_markdown_content o j path base_url).1
        = (fetchLoopAux o j (url_to_safe_filename path) 1 (1 + 1)).1 :=
          fetchLoopAux_fst_step o j (url_to_safe_filename path) 0 2 hd0
      _ = (fetchLoopAux o j (url_to_safe_filename path) 2 (0 + 1)).1 :=
          fetchLoopAux_fst_step o j (url_to_safe_filename path) 1 1 hd1
      _ = .failure (terminalMsg (url_to_safe_filename path) m) := by
          rw [fetchLoopAux_te_last o j (url_to_safe_filename path) 2 0 m hm (by decide)]

/-- Witness for `exhausted_attempts_outcome`: three consecutive transport
failures end in the terminal error embedding the last message. -/
theorem exhausted_attempts_outcome_witness :
    (fetch_markdown_content (fun _ => .transportError "boom".toList) (fun _ => 1)
      "/docs/en/mcp".toList "https://code.claude.com".toList).1 =
      .failure (terminalMsg (url_to_safe_filename "/docs/en/mcp".toList) "boom".toList) :=
  (exhausted_attempts_outcome (fun _ => .transportError "boom".toList) (fun _ => 1)
    "/docs/en/mcp".toList "https://code.claude.com".toList
    (fun k hk => Or.inr ⟨"boom".toList, rfl⟩)).2 "boom".toList rfl

theorem keysOf_map_replace {β : Type} (l : AssocStr β) (n : Str) (v : β) :
    keysOf (l.map fun p => if p.1 == n then (n, v) else p) = keysOf l := by
  simp only [keysOf, List.map_map]
  apply List.map_congr_left
  intro p hp
  simp only [Function.comp_apply]
  by_cases h : (p.1 == n) = true
  · rw [if_pos h]
    exact (beq_iff_eq.mp h).symm
  · rw [if_neg h]

theorem any_key_mem {β : Type} (l : AssocStr β) (n : Str)
    (h : (l.any fun p => p.1 == n) = true) : n ∈ keysOf l := by
  rw [List.any_eq_true] at h
  obtain ⟨p, hp, hpn⟩ := h
  rw [keysOf, List.mem_map]
  exact ⟨p, hp, beq_iff_eq.mp hpn⟩

theorem mem_keys_setAssoc {β : Type} (l : AssocStr β) (n : Str) (v : β) (f : Str) :
    f ∈ keysOf (setAssoc l n v) ↔ f = n ∨ f ∈ keysOf l := by
  unfold setAssoc
  by_cases hany : (l.any fun p => p.1 == n) = true
  · rw [if_pos hany, keysOf_map_replace]
    constructor
    · exact Or.inr
    · rintro (rfl | h)
      · exact any_key_mem l f hany
      · exact h
  · rw [if_neg hany]
    simp only [keysOf, List.map_append, List.mem_append, List.map_cons, List.map_nil,
      List.mem_singleton, List.mem_cons, List.not_mem_nil, or_false]
    tauto

theorem getAssoc_setAssoc_self {β : Type} (l : AssocStr β) (n : Str) (v : β) :
    getAssoc (setAssoc l n v) n = some v := by
  induction l with
  | nil =>
    simp only [setAssoc, List.any_nil, Bool.false_eq_true, if_false, List.nil_append,
      getAssoc]
    rw [List.find?_cons_of_pos _ (by simp), Option.map_some']
  | cons x xs ih =>
    by_cases hx : (x.1 == n) = true
    · have hany : ((x :: xs).any fun p => p.1 == n) = true := by
        simp [List.any_cons, hx]
      simp only [setAssoc, hany, if_true, List.map_cons, getAssoc]
      rw [if_pos hx, List.find?_cons_of_pos _ (by simp), Option.map_some']
    · by_cases hxs : (xs.any fun p => p.1 == n) = true
      · have hany : ((x :: xs).any fun p => p.1 == n) = true := by
          simp [List.any_cons, hxs]
        have ihs := ih
        simp only [setAssoc, hxs, if_true] at ihs
        simp only [setAssoc, hany, if_true, List.map_cons, getAssoc]
        rw [if_neg hx, List.find?_cons_of_neg _ (by simpa using hx)]
        exact ihs
      · have hany : ((x :: xs).any fun p => p.1 == n) = false := by
          simp only [List.any_cons, Bool.or_eq_false_iff]
          exact ⟨Bool.eq_false_iff.mpr hx, Bool.eq_false_iff.mpr hxs⟩
        have ihs := ih
        simp only [setAssoc, hxs, if_false, Bool.false_eq_true] at ihs
        simp only [setAssoc, hany, if_false, Bool.false_eq_true, List.cons_append,
          getAssoc]
        rw [List.find?_cons_of_neg _ (by simpa using hx)]
        exact ihs

theorem mem_keys_eraseAssoc {β : Type} (l : AssocStr β) (n f : Str) :
    f ∈ keysOf (eraseAssoc l n) ↔ f ∈ keysOf l ∧ f ≠ n := by
  simp only [eraseAssoc, keysOf, List.mem_map, List.mem_filter]
  constructor
  · rintro ⟨p, ⟨hp, hpn⟩, rfl⟩
    refine ⟨⟨p, hp, rfl⟩, ?_⟩
    simpa using hpn
  · rintro ⟨⟨p, hp, rfl⟩, hfn⟩
    exact ⟨p, ⟨hp, by simpa using hfn⟩, rfl⟩

/-- Claim C1: in the per-page step of `fetch_docs`, when an entry for the
derived filename exists in the loaded manifest and the hash of the freshly
fetched content (`H` abstracting the SHA-256 hex digest) equals the stored
hash, the file is not rewritten on disk, the recorded entry keeps the stored
hash and carries forward the previous `last_updated`, and the filename is
still recorded in the new manifest; when the hash differs, the file is
written to disk and the recorded entry carries the new hash with
`last_updated` stamped to `now`. -/
theorem unchanged_content_skips_write (H : Str → Str) (oldFiles : Files)
    (base_url now : Str) (st : RunState) (p content : Str) (e : ManifestEntry)
    (he : getAssoc oldFiles (url_to_safe_filename p) = some e) :
    (H content = e.hash →
      (pageStep H oldFiles base_url now st p (some content)).disk = st.disk ∧
      getAssoc (pageStep H oldFiles base_url now st p (some content)).newFiles
        (url_to_safe_filename p) =
        some ⟨base_url ++ p, e.hash, e.last_updated, none⟩ ∧
      url_to_safe_filename p ∈
        (pageStep H oldFiles base_url now st p (some content)).fetched) ∧
    (H content ≠ e.hash →
      (pageStep H oldFiles base_url now st p (some content)).disk =
        setAssoc st.disk (url_to_safe_filename p) content ∧
      getAssoc (pageStep H oldFiles base_url now st p (some content)).newFiles
        (url_to_safe_filename p) = some ⟨base_url ++ p, H content, now, none⟩ ∧
      url_to_safe_filename p ∈
        (pageStep H oldFiles base_url now st p (some content)).fetched) := by
  constructor
  · intro hh
    have hb : content_has_changed H content e.hash = false := by
      simp [content_has_changed, hh]
    simp only [pageStep, he, Option.map_some', Option.getD_some, hb,
      Bool.false_eq_true, if_false]
    exact ⟨by trivial, getAssoc_setAssoc_self _ _ _, List.mem_insert_self _ _⟩
  · intro hh
    have hb : content_has_changed H content e.hash = true := by
      simp only [content_has_changed, bne_iff_ne, ne_eq]
      exact hh
    simp only [pageStep, he, Option.map_some', Option.getD_some, hb, if_true]
    exact ⟨by trivial, getAssoc_setAssoc_self _ _ _, List.mem_insert_self _ _⟩

/-- Manifest entry fixture for the `unchanged_content_skips_write` witness. -/
def w1Entry : ManifestEntry :=
  ⟨"https://code.claude.com/docs/en/hooks".toList, 'h' :: "same".toList,
    "2024-01-01T00:00:00".toList, none⟩

/-- Loaded-manifest fixture for the `unchanged_content_skips_write` witness. -/
def w1Old : Files := [("hooks.md".toList, w1Entry)]

/-- Run-state fixture for the `unchanged_content_skips_write` witness. -/
def w1St : RunState :=
  ⟨[], [], 0, 0, [], [("hooks.md".toList, "same".toList)]⟩

/-- Witness for `unchanged_content_skips_write`: with the hash function
`fun s => 'h' :: s`, refetching the unchanged body `same` skips the disk
write and carries the entry forward, while the changed body `new` writes the
file and stamps `now`. -/
theorem unchanged_content_skips_write_witness :
    (pageStep (fun s => 'h' :: s) w1Old "https://code.claude.com".toList
      "2024-06-01T00:00:00".toList w1St "/docs/en/hooks".toList
      (some "same".toList)).disk = w1St.disk ∧
    getAssoc (pageStep (fun s => 'h' :: s) w1Old "https://code.claude.com".toList
      "2024-06-01T00:00:00".toList w1St "/docs/en/hooks".toList
      (some "same".toList)).newFiles "hooks.md".toList =
      some ⟨"https://code.claude.com".toList ++ "/docs/en/hooks".toList,
        w1Entry.hash, w1Entry.last_updated, none⟩ ∧
    (pageStep (fun s => 'h' :: s) w1Old "https://code.claude.com".toList
      "2024-06-01T00:00:00".toList w1St "/docs/en/hooks".toList
      (some "new".toList)).disk =
      setAssoc w1St.disk "hooks.md".toList "new".toList ∧
    getAssoc (pageStep (fun s => 'h' :: s) w1Old "https://code.claude.com".toList
      "2024-06-01T00:00:00".toList w1St "/docs/en/hooks".toList
      (some "new".toList)).newFiles "hooks.md".toList =
      some ⟨"https://code.claude.com".toList ++ "/docs/en/hooks".toList,
        'h' :: "new".toList, "2024-06-01T00:00:00".toList, none⟩ :=
  ⟨((unchanged_content_skips_write (fun s => 'h' :: s) w1Old
      "https://code.claude.com".toList "2024-06-01T00:00:00".toList w1St
      "/docs/en/hooks".toList "same".toList w1Entry (by decide)).1 (by decide)).1,
    ((unchanged_content_skips_write (fun s => 'h' :: s) w1Old
      "https://code.claude.com".toList "2024-06-01T00:00:00".toList w1St
      "/docs/en/hooks".toList "same".toList w1Entry (by decide)).1 (by decide)).2.1,
    ((unchanged_content_skips_write (fun s => 'h' :: s) w1Old
      "https://code.claude.com".toList "2024-06-01T00:00:00".toList w1St
      "/docs/en/hooks".toList "new".toList w1Entry (by decide)).2 (by decide)).1,
    ((unchanged_content_skips_write (fun s => 'h' :: s) w1Old
      "https://code.claude.com".toList "2024-06-01T00:00:00".toList w1St
      "/docs/en/hooks".toList "new".toList w1Entry (by decide)).2 (by decide)).2.1⟩

theorem pageStep_inv (H : Str → Str) (oldFiles : Files) (b now : Str) (disk0 : Disk)
    (st : RunState) (p : Str) (res : Option Str)
    (h1 : ∀ f, f ∈ keysOf st.newFiles ↔ f ∈ st.fetched)
    (h2 : ∀ f, f ∈ keysOf st.disk → f ∈ keysOf disk0 ∨ f ∈ st.fetched) :
    (∀ f, f ∈ keysOf (pageStep H oldFiles b now st p res).newFiles ↔
      f ∈ (pageStep H oldFiles b now st p res).fetched) ∧
    (∀ f, f ∈ keysOf (pageStep H oldFiles b now st p res).disk →
      f ∈ keysOf disk0 ∨ f ∈ (pageStep H oldFiles b now st p res).fetched) := by
  cases res with
  | none => exact ⟨h1, h2⟩
  | some content =>
    simp only [pageStep]
    split
    · constructor
      · intro f
        rw [mem_keys_setAssoc, List.mem_insert_iff, h1]
      · intro f hf
        rw [mem_keys_setAssoc] at hf
        rcases hf with rfl | hf
        · exact Or.inr (List.mem_insert_self _ _)
        · rcases h2 f hf with h | h
          · exact Or.inl h
          · exact Or.inr (List.mem_insert_iff.mpr (Or.inr h))
    · constructor
      · intro f
        rw [mem_keys_setAssoc, List.mem_insert_iff, h1]
      · intro f hf
        rcases h2 f hf with h | h
        · exact Or.inl h
        · exact Or.inr (List.mem_insert_iff.mpr (Or.inr h))

theorem changelogStep_inv (H : Str → Str) (oldFiles : Files) (now : Str) (disk0 : Disk)
    (st : RunState) (chRes : Option Str)
    (h1 : ∀ f, f ∈ keysOf st.newFiles ↔ f ∈ st.fetched)
    (h2 : ∀ f, f ∈ keysOf st.disk → f ∈ keysOf disk0 ∨ f ∈ st.fetched) :
    (∀ f, f ∈ keysOf (changelogStep H oldFiles now st chRes).newFiles ↔
      f ∈ (changelogStep H oldFiles now st chRes).fetched) ∧
    (∀ f, f ∈ keysOf (changelogStep H oldFiles now st chRes).disk →
      f ∈ keysOf disk0 ∨ f ∈ (changelogStep H oldFiles now st chRes).fetched) := by
  cases chRes with
  | none => exact ⟨h1, h2⟩
  | some content =>
    simp only [changelogStep]
    split
    · constructor
      · intro f
        rw [mem_keys_setAssoc, List.mem_insert_iff, h1]
      · intro f hf
        rw [mem_keys_setAssoc] at hf
        rcases hf with rfl | hf
        · exact Or.inr (List.mem_insert_self _ _)
        · rcases h2 f hf with h | h
          · exact Or.inl h
          · exact Or.inr (List.mem_insert_iff.mpr (Or.inr h))
    · constructor
      · intro f
        rw [mem_keys_setAssoc, List.mem_insert_iff, h1]
      · intro f hf
        rcases h2 f hf with h | h
        · exact Or.inl h
        · exact Or.inr (List.mem_insert_iff.mpr (Or.inr h))

theorem foldl_pages_inv (H : Str → Str) (oldFiles : Files) (b now : Str)
    (oracle : Str → Option Str) (disk0 : Disk) :
    ∀ (pages : List Str) (st : RunState),
      (∀ f, f ∈ keysOf st.newFiles ↔ f ∈ st.fetched) →
      (∀ f, f ∈ keysOf st.disk → f ∈ keysOf disk0 ∨ f ∈ st.fetched) →
      (∀ f, f ∈ keysOf (pages.foldl
          (fun st p => pageStep H oldFiles b now st p (oracle p)) st).newFiles ↔
        f ∈ (pages.foldl
          (fun st p => pageStep H oldFiles b now st p (oracle p)) st).fetched) ∧
      (∀ f, f ∈ keysOf (pages.foldl
          (fun st p => pageStep H oldFiles b now st p (oracle p)) st).disk →
        f ∈ keysOf disk0 ∨ f ∈ (pages.foldl
          (fun st p => pageStep H oldFiles b now st p (oracle p)) st).fetched) := by
  intro pages
  induction pages with
  | nil => intro st h1 h2; exact ⟨h1, h2⟩
  | cons p ps ih =>
    intro st h1 h2
    simp only [List.foldl_cons]
    obtain ⟨g1, g2⟩ := pageStep_inv H oldFiles b now disk0 st p (oracle p) h1 h2
    exact ih _ g1 g2

theorem cleanupFold_subset (toRemove : List Str) :
    ∀ (d : Disk) (f : Str),
      f ∈ keysOf (toRemove.foldl
        (fun d g => if g ∈ protected_files then d else eraseAssoc d g) d) →
      f ∈ keysOf d := by
  induction toRemove with
  | nil => intro d f h; exact h
  | cons g gs ih =>
    intro d f h
    simp only [List.foldl_cons] at h
    have hmem := ih _ f h
    by_cases hg : g ∈ protected_files
    · rwa [if_pos hg] at hmem
    · rw [if_neg hg] at hmem
      exact ((mem_keys_eraseAssoc _ _ _).mp hmem).1

theorem cleanupFold_not_mem (toRemove : List Str) :
    ∀ (d : Disk) (f : Str), f ∈ toRemove → f ∉ protected_files →
      f ∉ keysOf (toRemove.foldl
        (fun d g => if g ∈ protected_files then d else eraseAssoc d g) d) := by
  induction toRemove with
  | nil => intro d f h; cases h
  | cons g gs ih =>
    intro d f hf hp
    simp only [List.foldl_cons]
    rcases List.mem_cons.mp hf with rfl | hf
    · rw [if_neg hp]
      intro hmem
      have := cleanupFold_subset gs _ f hmem
      exact ((mem_keys_eraseAssoc _ _ _).mp this).2 rfl
    · by_cases hg : g ∈ protected_files
      · rw [if_pos hg]
        exact ih _ f hf hp
      · rw [if_neg hg]
        exact ih _ f hf hp

theorem cleanupFold_protected (toRemove : List Str) :
    ∀ (d : Disk) (f : Str), f ∈ protected_files →
      (f ∈ keysOf (toRemove.foldl
        (fun d g => if g ∈ protected_files then d else eraseAssoc d g) d) ↔
      f ∈ keysOf d) := by
  induction toRemove with
  | nil => intro d f _; exact Iff.rfl
  | cons g gs ih =>
    intro d f hp
    simp only [List.foldl_cons]
    by_cases hg : g ∈ protected_files
    · rw [if_pos hg]
      exact ih d f hp
    · rw [if_neg hg]
      rw [ih _ f hp, mem_keys_eraseAssoc]
      constructor
      · exact And.left
      · intro h
        refine ⟨h, ?_⟩
        rintro rfl
        exact hg hp

theorem contains_eq_false_of_not_mem {a : Str} {l : List Str} (h : a ∉ l) :
    l.contains a = false := by
  rw [Bool.eq_false_iff]
  intro hc
  exact h (List.elem_iff.mp hc)

/-- Claim C2: after a `fetch_docs` run, (i) the new manifest's `files` keys
are exactly the successfully fetched filenames; (ii) every filename in the
previously loaded manifest that was not fetched this run and is not
protected is deleted from the references directory; (iii) the protected
names keep exactly the on-disk presence they had after the fetch loop (they
are never deleted); (iv) a protected name not fetched this run is absent
from the new manifest. -/
theorem cleanup_and_manifest_keys (H : Str → Str) (oldFiles : Files)
    (base_url now : Str) (pages : List Str) (oracle : Str → Option Str)
    (chRes : Option Str) (disk0 : Disk) :
    (∀ f, f ∈ keysOf
        (fetchDocsModel H oldFiles base_url now pages oracle chRes disk0).1.newFiles ↔
      f ∈ (fetchDocsModel H oldFiles base_url now pages oracle chRes disk0).1.fetched) ∧
    (∀ f, f ∈ keysOf oldFiles →
      f ∉ (fetchDocsModel H oldFiles base_url now pages oracle chRes disk0).1.fetched →
      f ∉ protected_files →
      f ∉ keysOf (fetchDocsModel H oldFiles base_url now pages oracle chRes disk0).2) ∧
    (∀ f, f ∈ protected_files →
      (f ∈ keysOf (fetchDocsModel H oldFiles base_url now pages oracle chRes disk0).2 ↔
        f ∈ keysOf
          (fetchDocsModel H oldFiles base_url now pages oracle chRes disk0).1.disk)) ∧
    (∀ f, f ∈ protected_files →
      f ∉ (fetchDocsModel H oldFiles base_url now pages oracle chRes disk0).1.fetched →
      f ∉ keysOf
        (fetchDocsModel H oldFiles base_url now pages oracle chRes disk0).1.newFiles) := by
  obtain ⟨b1, b2⟩ := foldl_pages_inv H oldFiles base_url now oracle disk0 pages
    ⟨[], [], 0, 0, [], disk0⟩ (by intro f; simp [keysOf]) (fun f hf => Or.inl hf)
  obtain ⟨k1, k2⟩ := changelogStep_inv H oldFiles now disk0 _ chRes b1 b2
  simp only [fetchDocsModel]
  refine ⟨k1, ?_, ?_, ?_⟩
  · intro f hof hnf hnp
    simp only [cleanup_old_files]
    refine cleanupFold_not_mem _ _ f ?_ hnp
    refine List.mem_filter.mpr ⟨hof, ?_⟩
    rw [contains_eq_false_of_not_mem hnf]
    rfl
  · intro f hp
    simp only [cleanup_old_files]
    exact cleanupFold_protected _ _ f hp
  · intro f hp hnf hmem
    exact hnf ((k1 f).mp hmem)

/-- Loaded-manifest fixture for the `cleanup_and_manifest_keys` witness. -/
def w2Old : Files :=
  [("a.md".toList, ⟨"u".toList, "x".toList, "t".toList, none⟩),
   ("c.md".toList, ⟨"u".toList, "x".toList, "t".toList, none⟩),
   ("README.md".toList, ⟨"u".toList, "x".toList, "t".toList, none⟩)]

/-- Initial references-directory fixture for the
`cleanup_and_manifest_keys` witness. -/
def w2Disk : Disk :=
  [("a.md".toList, "olda".toList), ("c.md".toList, "oldc".toList),
   ("README.md".toList, "readme".toList)]

/-- Per-page fetch oracle for the `cleanup_and_manifest_keys` witness: only
`/docs/en/a` succeeds. -/
def w2Oracle : Str → Option Str :=
  fun p => if p = "/docs/en/a".toList then some "abody".toList else none

/-- Witness for `cleanup_and_manifest_keys`: a run over manifest
`{a.md, c.md, README.md}` fetching only `a.md` deletes `c.md`, keeps the
protected `README.md` on disk while dropping it from the new manifest, and
has `a.md` in the new manifest exactly as a fetched file. -/
theorem cleanup_and_manifest_keys_witness :
    "c.md".toList ∉ keysOf (fetchDocsModel (fun s => 'h' :: s) w2Old
      "https://code.claude.com".toList "t2".toList ["/docs/en/a".toList]
      w2Oracle none w2Disk).2 ∧
    ("README.md".toList ∈ keysOf (fetchDocsModel (fun s => 'h' :: s) w2Old
      "https://code.claude.com".toList "t2".toList ["/docs/en/a".toList]
      w2Oracle none w2Disk).2 ↔
      "README.md".toList ∈ keysOf (fetchDocsModel (fun s => 'h' :: s) w2Old
        "https://code.claude.com".toList "t2".toList ["/docs/en/a".toList]
        w2Oracle none w2Disk).1.disk) ∧
    "README.md".toList ∉ keysOf (fetchDocsModel (fun s => 'h' :: s) w2Old
      "https://code.claude.com".toList "t2".toList ["/docs/en/a".toList]
      w2Oracle none w2Disk).1.newFiles ∧
    ("a.md".toList ∈ keysOf (fetchDocsModel (fun s => 'h' :: s) w2Old
      "https://code.claude.com".toList "t2".toList ["/docs/en/a".toList]
      w2Oracle none w2Disk).1.newFiles ↔
      "a.md".toList ∈ (fetchDocsModel (fun s => 'h' :: s) w2Old
        "https://code.claude.com".toList "t2".toList ["/docs/en/a".toList]
        w2Oracle none w2Disk).1.fetched) :=
  ⟨(cleanup_and_manifest_keys (fun s => 'h' :: s) w2Old
      "https://code.claude.com".toList "t2".toList ["/docs/en/a".toList]
      w2Oracle none w2Disk).2.1 _ (by decide) (by decide) (by decide),
    (cleanup_and_manifest_keys (fun s => 'h' :: s) w2Old
      "https://code.claude.com".toList "t2".toList ["/docs/en/a".toList]
      w2Oracle none w2Disk).2.2.1 _ (by decide),
    (cleanup_and_manifest_keys (fun s => 'h' :: s) w2Old
      "https://code.claude.com".toList "t2".toList ["/docs/en/a".toList]
      w2Oracle none w2Disk).2.2.2 _ (by decide) (by decide),
    (cleanup_and_manifest_keys (fun s => 'h' :: s) w2Old
      "https://code.claude.com".toList "t2".toList ["/docs/en/a".toList]
      w2Oracle none w2Disk).1 _⟩
